import Mathlib

/-!
Verification of `kissdsp/spatial.py`.

A shallow embedding of the four functions of `kissdsp/spatial.py`
(`scm`, `steering`, `freefield`, `rotmat`) and proofs of the specified
properties.  Floating-point numbers are modelled by the real numbers ℝ,
complex spectra by ℂ.  NumPy arrays are modelled by a shape (a tuple of
natural numbers) together with a total entry function; NumPy's
broadcasting rules for the operations actually used by the source are
modelled explicitly.  An operation that would raise a NumPy exception is
modelled by `Option.none`.
-/

open Complex (I)
open scoped ComplexConjugate

/-- A 3-axis complex array: shape `(d0, d1, d2)` plus a total entry
function (values outside the shape are irrelevant junk, as in any
shallow embedding of an array by a function). -/
@[ext]
structure Arr3 where
  d0 : Nat
  d1 : Nat
  d2 : Nat
  e : Nat → Nat → Nat → ℂ

/-- A 2-axis complex array. -/
@[ext]
structure Arr2 where
  d0 : Nat
  d1 : Nat
  e : Nat → Nat → ℂ

/-- NumPy broadcast compatibility of two dimension lengths: equal, or one
of them is `1`. -/
def bcompat (a b : Nat) : Prop := a = b ∨ a = 1 ∨ b = 1

instance (a b : Nat) : Decidable (bcompat a b) := by
  unfold bcompat; infer_instance

/-- The broadcast result length of two compatible dimension lengths
(NumPy: a length-1 axis is stretched to the other length). -/
def bres (a b : Nat) : Nat := if a = 1 then b else a

/-- Broadcast index access: an axis of length 1 always reads index 0. -/
def bget (n i : Nat) : Nat := if n = 1 then 0 else i

/-- The default all-ones mask `np.ones(Xs.shape)` built by `scm` when
`Ms is None`. -/
def onesLike (A : Arr3) : Arr3 := ⟨A.d0, A.d1, A.d2, fun _ _ _ => 1⟩

/-- The masked slice `XM = Xs[:, :, b] * Ms[:, :, b]` of `scm`, read at
broadcast position `(p, f)` of the broadcast result grid. -/
def scmXM (Xs Ms : Arr3) (b p f : Nat) : ℂ :=
  Xs.e (bget Xs.d0 p) (bget Xs.d1 f) b * Ms.e (bget Ms.d0 p) (bget Ms.d1 f) b

/-- The value computed by the loop body of `scm`:
`XXs[b, :, :] = XM @ XM.conj().T`, so entry `(b, i, j)` is
`sum_f XM[i, f] * conj (XM[j, f])`, with NumPy broadcast indexing for the
elementwise product `Xs[:, :, b] * Ms[:, :, b]` and for the assignment of
the `(r, r)` product into the `(C, C)` slot of the output. -/
noncomputable def scmVal (Xs Ms : Arr3) : Arr3 :=
  ⟨Xs.d2, Xs.d0, Xs.d0, fun b i j =>
    ∑ f ∈ Finset.range (bres Xs.d1 Ms.d1),
      scmXM Xs Ms b (bget (bres Xs.d0 Ms.d0) i) f *
        conj (scmXM Xs Ms b (bget (bres Xs.d0 Ms.d0) j) f)⟩

/-- The conditions under which no NumPy exception is raised while the
bin loop of `scm` runs: every accessed bin index of `Ms` is in range
(`Xs.d2 ≤ Ms.d2`), the 2-D slices of `Xs` and `Ms` are broadcast
compatible, and the broadcast channel count equals `Xs.d0` or `1` so the
product can be assigned into the `(C, C)` slot.  When `Xs.d2 = 0` the
loop body never runs and nothing is checked. -/
def scmOk (Xs Ms : Arr3) : Prop :=
  Xs.d2 = 0 ∨
    (Xs.d2 ≤ Ms.d2 ∧ bcompat Xs.d0 Ms.d0 ∧ bcompat Xs.d1 Ms.d1 ∧
      (bres Xs.d0 Ms.d0 = Xs.d0 ∨ bres Xs.d0 Ms.d0 = 1))

instance (Xs Ms : Arr3) : Decidable (scmOk Xs Ms) := by
  unfold scmOk; infer_instance

/-- The function `scm(Xs, Ms)` of `kissdsp/spatial.py`: per-bin spatial
correlation matrices `XXs[b] = XM @ XM.conj().T` over the masked slices; a missing
mask defaults to `np.ones(Xs.shape)`; `none` models a NumPy exception. -/
noncomputable def scm (Xs : Arr3) (Msopt : Option Arr3) : Option Arr3 :=
  if scmOk Xs (Msopt.getD (onesLike Xs)) then
    some (scmVal Xs (Msopt.getD (onesLike Xs)))
  else none

-- Small helper lemmas about broadcasting.

theorem bget_lt (n i : Nat) (h : i < n) : bget n i = i := by
  unfold bget
  split
  · omega
  · rfl

theorem bres_self (a : Nat) : bres a a = a := by
  unfold bres; split <;> omega

theorem scmOk_same (Xs Ms : Arr3) (h0 : Ms.d0 = Xs.d0) (h1 : Ms.d1 = Xs.d1)
    (h2 : Ms.d2 = Xs.d2) : scmOk Xs Ms := by
  right
  refine ⟨by omega, Or.inl h0.symm, Or.inl h1.symm, Or.inl ?_⟩
  rw [h0, bres_self]

/-- The result of `np.linalg.eigh` on a stack of matrices, as consumed by
`steering`: `w b k` is the `k`-th eigenvalue of bin `b`, and `V b r k` is
row `r` of the `k`-th eigenvector column of bin `b`.  `np.linalg.eigh` is
an external library routine, so it is modelled as a parameter of
`steering`; its documented contract (real eigenvalues in ascending order,
columns being corresponding eigenvectors) appears as hypotheses where a
claim relies on it. -/
structure EighResult where
  w : Nat → Nat → ℝ
  V : Nat → Nat → Nat → ℂ

/-- The selection `vs = np.linalg.eigh(XXs)[1][:, :, -1]`: the last
eigenvector column of every bin, where the number of columns is
`XXs.shape[1]`. -/
def selVec (eig : EighResult) (XXs : Arr3) (b c : Nat) : ℂ :=
  eig.V b c (XXs.d1 - 1)

/-- The function `steering(XXs)` of `kissdsp/spatial.py`: take the last
eigenvector of
each bin and divide it componentwise by `exp(1j * np.angle(vs[b, 0]))`,
(the unit phase factor of its own first component).  `np.angle` is
`Complex.arg` (both take values in `(-pi, pi]` and send `0` to `0`). -/
noncomputable def steering (eig : EighResult) (XXs : Arr3) : Arr2 :=
  ⟨XXs.d0, XXs.d1, fun b c =>
    selVec eig XXs b c / Complex.exp (I * ((selVec eig XXs b 0).arg : ℂ))⟩

/-- Matrix–vector product of the leading `n × n` block, used to state
what it means for a column of `EighResult.V` to be an eigenvector. -/
noncomputable def matVec (A : Nat → Nat → ℂ) (n : Nat) (v : Nat → ℂ) (i : Nat) : ℂ :=
  ∑ j ∈ Finset.range n, A i j * v j

/-- The ideal plane-wave response built by `freefield`:
`As = np.exp(-1j * 2.0 * np.pi * ks_outer_tdoas / frame_size)`, entry
`(k, c)` of which is `exp(-1j * 2 * pi * (k * tdoas[c]) / frame_size)`. -/
noncomputable def ffA (tdoas : Nat → ℝ) (frame_size : Nat) (k c : Nat) : ℂ :=
  Complex.exp (-I * 2 * (Real.pi : ℂ) * ((k : ℝ) * tdoas c : ℝ) / (frame_size : ℂ))

/-- The function `freefield(tdoas, frame_size)` of `kissdsp/spatial.py`:
shape
`(int(frame_size/2) + 1, C, C)` where `C = len(tdoas)` (passed as the
explicit argument `C` since a TDOA vector is modelled by a function), and
`AAs[k] = As[k] (As[k])^H`, i.e. entry `(k, i, j)` is
`As[k, i] * conj (As[k, j])` (the batched matmul of the `(B, C, 1)` and
`(B, 1, C)` expansions contracts over a singleton axis). -/
noncomputable def freefield (tdoas : Nat → ℝ) (C : Nat) (frame_size : Nat := 512) : Arr3 :=
  ⟨frame_size / 2 + 1, C, C, fun k i j =>
    ffA tdoas frame_size k i * conj (ffA tdoas frame_size k j)⟩

/-- The function `rotmat(yaw, pitch, roll)` of `kissdsp/spatial.py`: the
nine
trigonometric entries exactly as assigned in the source, with
`alpha = yaw`, `beta = pitch`, `gamma = roll`. -/
noncomputable def rotmat (yaw pitch roll : ℝ) : Matrix (Fin 3) (Fin 3) ℝ :=
  let alpha := yaw
  let beta := pitch
  let gamma := roll
  !![Real.cos beta * Real.cos gamma,
     Real.sin alpha * Real.sin beta * Real.cos gamma - Real.cos alpha * Real.sin gamma,
     Real.cos alpha * Real.sin beta * Real.cos gamma + Real.sin alpha * Real.sin gamma;
     Real.cos beta * Real.sin gamma,
     Real.sin alpha * Real.sin beta * Real.sin gamma + Real.cos alpha * Real.cos gamma,
     Real.cos alpha * Real.sin beta * Real.sin gamma - Real.sin alpha * Real.cos gamma;
     -Real.sin beta,
     Real.sin alpha * Real.cos beta,
     Real.cos alpha * Real.cos beta]

/-- Spec-side definition (for the refinement claim C1): the elementary
rotation about the Z axis, `Rz(t)`, from the spec's stated aerospace
convention. -/
noncomputable def Rz (t : ℝ) : Matrix (Fin 3) (Fin 3) ℝ :=
  !![Real.cos t, -Real.sin t, 0;
     Real.sin t, Real.cos t, 0;
     0, 0, 1]

/-- Spec-side definition (for the refinement claim C1): the elementary
rotation about the Y axis, `Ry(t)`. -/
noncomputable def Ry (t : ℝ) : Matrix (Fin 3) (Fin 3) ℝ :=
  !![Real.cos t, 0, Real.sin t;
     0, 1, 0;
     -Real.sin t, 0, Real.cos t]

/-- Spec-side definition (for the refinement claim C1): the elementary
rotation about the X axis, `Rx(t)`. -/
noncomputable def Rx (t : ℝ) : Matrix (Fin 3) (Fin 3) ℝ :=
  !![1, 0, 0;
     0, Real.cos t, -Real.sin t;
     0, Real.sin t, Real.cos t]

/-- A stack of matrices is Hermitian slice by slice (the data-model
invariant the spec states for correlation matrices). -/
def IsHermitianStack (XX : Arr3) : Prop :=
  ∀ b i j, b < XX.d0 → i < XX.d1 → j < XX.d2 → XX.e b i j = conj (XX.e b j i)

-- Helper lemmas for the rotation-matrix claims.

theorem rotmat_eq_Rz_Ry_Rx (y p r : ℝ) : rotmat y p r = Rz r * Ry p * Rx y := by
  unfold rotmat Rz Ry Rx
  ext i j
  fin_cases i <;> fin_cases j <;>
    simp [Matrix.mul_apply, Fin.sum_univ_three, Matrix.vecHead, Matrix.vecTail] <;> ring

theorem Rz_orth (t : ℝ) : Rz t * (Rz t).transpose = 1 := by
  ext i j
  fin_cases i <;> fin_cases j <;>
    simp [Rz, Matrix.mul_apply, Matrix.transpose_apply, Fin.sum_univ_three,
      Matrix.vecHead, Matrix.vecTail, Matrix.one_apply] <;>
    first
      | ring1
      | linear_combination Real.sin_sq_add_cos_sq t

theorem Ry_orth (t : ℝ) : Ry t * (Ry t).transpose = 1 := by
  ext i j
  fin_cases i <;> fin_cases j <;>
    simp [Ry, Matrix.mul_apply, Matrix.transpose_apply, Fin.sum_univ_three,
      Matrix.vecHead, Matrix.vecTail, Matrix.one_apply] <;>
    first
      | ring1
      | linear_combination Real.sin_sq_add_cos_sq t

theorem Rx_orth (t : ℝ) : Rx t * (Rx t).transpose = 1 := by
  ext i j
  fin_cases i <;> fin_cases j <;>
    simp [Rx, Matrix.mul_apply, Matrix.transpose_apply, Fin.sum_univ_three,
      Matrix.vecHead, Matrix.vecTail, Matrix.one_apply] <;>
    first
      | ring1
      | linear_combination Real.sin_sq_add_cos_sq t

theorem Rz_det (t : ℝ) : (Rz t).det = 1 := by
  simp [Rz, Matrix.det_fin_three, Matrix.vecHead, Matrix.vecTail]
  linear_combination Real.sin_sq_add_cos_sq t

theorem Ry_det (t : ℝ) : (Ry t).det = 1 := by
  simp [Ry, Matrix.det_fin_three, Matrix.vecHead, Matrix.vecTail]
  linear_combination Real.sin_sq_add_cos_sq t

theorem Rx_det (t : ℝ) : (Rx t).det = 1 := by
  simp [Rx, Matrix.det_fin_three, Matrix.vecHead, Matrix.vecTail]
  linear_combination Real.sin_sq_add_cos_sq t

/-- C1 (counterexample): at `yaw = pi/2`, `pitch = roll = 0`, the matrix
returned by `rotmat` is not `Rz(yaw) * Ry(pitch) * Rx(roll)`: the source
applies the yaw angle in the X-rotation slots, so `rotmat (pi/2) 0 0` is
`Rx(pi/2)` (entry `(0,0)` is `1`), while the claimed product is
`Rz(pi/2)` (entry `(0,0)` is `0`). -/
theorem rotmat_zyx_convention_cex :
    rotmat (Real.pi / 2) 0 0 ≠ Rz (Real.pi / 2) * Ry 0 * Rx 0 := by
  intro h
  have h00 := congrFun (congrFun h 0) 0
  simp [rotmat, Rz, Ry, Rx, Matrix.mul_apply, Fin.sum_univ_three,
    Matrix.vecHead, Matrix.vecTail, Real.cos_pi_div_two, Real.sin_pi_div_two] at h00

/-- C1 (amended): for all yaw, pitch, roll angles, `rotmat` returns the
composition `Rz(roll) * Ry(pitch) * Rx(yaw)`: the Z-Y-X matrix form with
the roll angle in the Z-rotation and the yaw angle in the X-rotation
(yaw and roll exchanged with respect to the claimed
`Rz(yaw) * Ry(pitch) * Rx(roll)`). -/
theorem rotmat_is_Rz_roll_Ry_pitch_Rx_yaw (yaw pitch roll : ℝ) :
    rotmat yaw pitch roll = Rz roll * Ry pitch * Rx yaw :=
  rotmat_eq_Rz_Ry_Rx yaw pitch roll

/-- C8: for all yaw, pitch, roll angles, the matrix `R` returned by
`rotmat` satisfies `R * R.transpose = 1` and `det R = 1`. -/
theorem rotmat_orthogonal_det_one (yaw pitch roll : ℝ) :
    rotmat yaw pitch roll * (rotmat yaw pitch roll).transpose = 1 ∧
      (rotmat yaw pitch roll).det = 1 := by
  rw [rotmat_eq_Rz_Ry_Rx]
  constructor
  · rw [Matrix.transpose_mul, Matrix.transpose_mul,
      mul_assoc (Rz roll * Ry pitch) (Rx yaw), ← mul_assoc (Rx yaw) (Rx yaw).transpose,
      Rx_orth, one_mul, mul_assoc (Rz roll) (Ry pitch),
      ← mul_assoc (Ry pitch) (Ry pitch).transpose, Ry_orth, one_mul, Rz_orth]
  · rw [Matrix.det_mul, Matrix.det_mul, Rz_det, Ry_det, Rx_det]
    norm_num

/-- C9: degenerate but well-defined inputs raise no error: `scm` on an
all-zero signal (no mask) and `scm` under an all-zero mask both succeed
and return all-zero matrices at every bin; `freefield` on a zero TDOA
vector returns all-ones (rank-1) matrices; and `rotmat 0 0 0` is the 3x3
identity matrix. -/
theorem degenerate_inputs_ok :
    (∀ C F B, scm ⟨C, F, B, fun _ _ _ => 0⟩ none = some ⟨B, C, C, fun _ _ _ => 0⟩) ∧
    (∀ Xs : Arr3, scm Xs (some ⟨Xs.d0, Xs.d1, Xs.d2, fun _ _ _ => 0⟩) =
      some ⟨Xs.d2, Xs.d0, Xs.d0, fun _ _ _ => 0⟩) ∧
    (∀ C N k i j, (freefield (fun _ => 0) C N).e k i j = 1) ∧
    rotmat 0 0 0 = 1 := by
  refine ⟨?_, ?_, ?_, ?_⟩
  · intro C F B
    show (if scmOk _ _ then _ else _) = _
    simp only [Option.getD_none]
    rw [if_pos (scmOk_same ⟨C, F, B, fun _ _ _ => 0⟩
      (onesLike ⟨C, F, B, fun _ _ _ => 0⟩) rfl rfl rfl)]
    congr 1
    ext b i j <;> try rfl
    simp [scmVal, scmXM, onesLike]
  · intro Xs
    show (if scmOk _ _ then _ else _) = _
    simp only [Option.getD_some]
    rw [if_pos (scmOk_same Xs ⟨Xs.d0, Xs.d1, Xs.d2, fun _ _ _ => 0⟩ rfl rfl rfl)]
    congr 1
    ext b i j <;> try rfl
    simp [scmVal, scmXM]
  · intro C N k i j
    simp [freefield, ffA]
  · ext i j
    fin_cases i <;> fin_cases j <;>
      simp [rotmat, Matrix.one_apply, Matrix.vecHead, Matrix.vecTail]

/-- The 2-channel, 4-frame, 1-bin all-ones example signal of the spec. -/
def Xex : Arr3 := ⟨2, 4, 1, fun _ _ _ => 1⟩

/-- A 1-channel, 4-frame, 1-bin all-ones mask: its shape differs from
`Xex`'s, but each per-bin slice broadcasts against `Xex`'s slices. -/
def Mcex : Arr3 := ⟨1, 4, 1, fun _ _ _ => 1⟩

/-- C2: for a mask of the same shape as `Xs` (or no mask, which defaults
to all ones), `scm` succeeds, its output has shape
`(bins, channels, channels)`, and entry `(b, i, j)` is the sum over
frames `f` of `(Xs[i,f,b] * Ms[i,f,b]) * conj (Xs[j,f,b] * Ms[j,f,b])`,
with no division by the frame count. -/
theorem scm_entry_formula (Xs : Arr3) (Msopt : Option Arr3) (Ms : Arr3)
    (hMs : Ms = Msopt.getD (onesLike Xs))
    (h0 : Ms.d0 = Xs.d0) (h1 : Ms.d1 = Xs.d1) (h2 : Ms.d2 = Xs.d2) :
    scm Xs Msopt = some (scmVal Xs Ms) ∧
    (scmVal Xs Ms).d0 = Xs.d2 ∧ (scmVal Xs Ms).d1 = Xs.d0 ∧
    (scmVal Xs Ms).d2 = Xs.d0 ∧
    ∀ b i j, b < Xs.d2 → i < Xs.d0 → j < Xs.d0 →
      (scmVal Xs Ms).e b i j =
        ∑ f ∈ Finset.range Xs.d1,
          (Xs.e i f b * Ms.e i f b) * conj (Xs.e j f b * Ms.e j f b) := by
  subst hMs
  refine ⟨?_, rfl, rfl, rfl, ?_⟩
  · show (if scmOk _ _ then _ else _) = _
    rw [if_pos (scmOk_same _ _ h0 h1 h2)]
  · intro b i j hb hi hj
    unfold scmVal
    dsimp only
    rw [h1, bres_self]
    refine Finset.sum_congr rfl fun f hf => ?_
    rw [Finset.mem_range] at hf
    unfold scmXM
    rw [h0, bres_self]
    simp only [bget_lt _ _ hi, bget_lt _ _ hj, bget_lt _ _ hf,
      bget_lt _ _ (h1 ▸ hf : f < (Msopt.getD (onesLike Xs)).d1),
      bget_lt _ _ (h0 ▸ hi : i < (Msopt.getD (onesLike Xs)).d0),
      bget_lt _ _ (h0 ▸ hj : j < (Msopt.getD (onesLike Xs)).d0)]

/-- C2 (witness): the spec example — 2 channels, 4 frames, 1 bin, all
entries `1`, no mask — yields the bin-0 matrix with all four entries `4`. -/
theorem scm_entry_formula_witness :
    scm Xex none = some (scmVal Xex (onesLike Xex)) ∧
    (scmVal Xex (onesLike Xex)).e 0 0 0 = 4 ∧
    (scmVal Xex (onesLike Xex)).e 0 0 1 = 4 ∧
    (scmVal Xex (onesLike Xex)).e 0 1 0 = 4 ∧
    (scmVal Xex (onesLike Xex)).e 0 1 1 = 4 := by
  have h := scm_entry_formula Xex none (onesLike Xex) rfl rfl rfl rfl
  refine ⟨h.1, ?_, ?_, ?_, ?_⟩ <;>
  · rw [h.2.2.2.2 _ _ _ (by norm_num [Xex]) (by norm_num [Xex]) (by norm_num [Xex])]
    simp [Xex, onesLike]

/-- C6 (counterexample): `scm` does not signal a failure for every mask
whose shape differs from the signal's: the all-ones mask `Mcex` of shape
`(1, 4, 1)` against the all-ones signal `Xex` of shape `(2, 4, 1)` has a
different shape, yet `scm` succeeds (the per-bin slices broadcast). -/
theorem scm_mask_shape_mismatch_cex :
    (scm Xex (some Mcex)).isSome = true ∧ Mcex.d0 ≠ Xex.d0 := by
  constructor
  · rfl
  · decide

/-- C6 (amended): `scm` performs no up-front shape validation; it
succeeds exactly when every iteration of the per-bin loop succeeds, i.e.
when every bin index accessed is in range for the mask and the per-bin
slices of mask and signal are broadcast compatible with a broadcast
channel count assignable into the `(C, C)` output slot.  In particular a
mask of a different but slice-broadcastable shape is accepted, and when
there are zero bins any mask shape is accepted. -/
theorem scm_mask_failure_characterization (Xs Ms : Arr3) :
    (scm Xs (some Ms)).isSome ↔
      ∀ b < Xs.d2, b < Ms.d2 ∧ bcompat Xs.d0 Ms.d0 ∧ bcompat Xs.d1 Ms.d1 ∧
        (bres Xs.d0 Ms.d0 = Xs.d0 ∨ bres Xs.d0 Ms.d0 = 1) := by
  show (if scmOk _ _ then _ else _ : Option Arr3).isSome ↔ _
  simp only [Option.getD_some]
  by_cases h : scmOk Xs Ms
  · rw [if_pos h]
    simp only [Option.isSome_some, true_iff]
    intro b hb
    rcases h with h | ⟨hle, hc0, hc1, hr⟩
    · omega
    · exact ⟨by omega, hc0, hc1, hr⟩
  · rw [if_neg h]
    simp only [Option.isSome_none, Bool.false_eq_true, false_iff]
    intro hall
    apply h
    rcases Nat.eq_zero_or_pos Xs.d2 with h2 | h2
    · exact Or.inl h2
    · obtain ⟨_, hc0, hc1, hr⟩ := hall 0 h2
      have hlast := (hall (Xs.d2 - 1) (by omega)).1
      exact Or.inr ⟨by omega, hc0, hc1, hr⟩

/-- C7: every per-bin slice of a successfully computed spatial
correlation matrix is Hermitian: `XX.e b i j = conj (XX.e b j i)`. -/
theorem scm_output_hermitian (Xs : Arr3) (Msopt : Option Arr3) (XX : Arr3)
    (h : scm Xs Msopt = some XX) : IsHermitianStack XX := by
  intro b i j hb hi hj
  unfold scm at h
  split at h
  · cases h
    unfold scmVal
    dsimp only
    rw [map_sum]
    refine Finset.sum_congr rfl fun f _ => ?_
    rw [map_mul, starRingEnd_self_apply, mul_comm]
  · cases h

/-- C7 (witness): on the spec's 2-channel, 4-frame, 1-bin all-ones
example with no mask, the computed bin-0 matrix satisfies
`XX[0][0][1] = conj (XX[0][1][0])`. -/
theorem scm_output_hermitian_witness :
    scm Xex none = some (scmVal Xex (onesLike Xex)) ∧
    (scmVal Xex (onesLike Xex)).e 0 0 1 =
      conj ((scmVal Xex (onesLike Xex)).e 0 1 0) := by
  have h : scm Xex none = some (scmVal Xex (onesLike Xex)) := by
    show (if scmOk _ _ then _ else _) = _
    simp only [Option.getD_none]
    rw [if_pos (scmOk_same Xex (onesLike Xex) rfl rfl rfl)]
  exact ⟨h, scm_output_hermitian Xex none _ h 0 0 1 (by decide) (by decide) (by decide)⟩

/-- A concrete Hermitian PSD single-bin stack (the SCM of the spec's
example): one bin, 2 x 2, all entries 4. -/
def XXw : Arr3 := ⟨1, 2, 2, fun _ _ _ => 4⟩

/-- A concrete eigendecomposition of `XXw` satisfying the `np.linalg.eigh`
contract: eigenvalues 0 and 8 in ascending order, eigenvector columns
`(1, -1)` and `(1, 1)`. -/
noncomputable def eigW4 : EighResult :=
  ⟨fun _ k => if k = 0 then 0 else 8,
   fun _ r k => if k = 0 then (if r = 0 then 1 else -1) else 1⟩

/-- C3: for any eigendecomposition output, any Hermitian input stack with
at least two channels and any bin, the first channel of `steering`'s
output has phase exactly zero: zero imaginary part and non-negative real
part (it equals the modulus of the first component of the selected
eigenvector). -/
theorem steering_first_channel_phase_zero (eig : EighResult) (XXs : Arr3) (b : Nat)
    (hC : 2 ≤ XXs.d1) (hHerm : IsHermitianStack XXs) :
    ((steering eig XXs).e b 0).im = 0 ∧ 0 ≤ ((steering eig XXs).e b 0).re := by
  have hkey : (steering eig XXs).e b 0 =
      ((Complex.abs (selVec eig XXs b 0) : ℝ) : ℂ) := by
    unfold steering
    dsimp only
    rw [eq_comm, eq_div_iff (Complex.exp_ne_zero _), mul_comm I]
    exact Complex.abs_mul_exp_arg_mul_I (selVec eig XXs b 0)
  rw [hkey]
  exact ⟨Complex.ofReal_im _, by rw [Complex.ofReal_re]; exact Complex.abs.nonneg _⟩

/-- C3 (witness): instantiation at the Hermitian stack `XXw` and the
eigendecomposition `eigW4`. -/
theorem steering_first_channel_phase_zero_witness :
    ((steering eigW4 XXw).e 0 0).im = 0 ∧ 0 ≤ ((steering eigW4 XXw).e 0 0).re := by
  refine steering_first_channel_phase_zero eigW4 XXw 0 (by norm_num [XXw]) ?_
  intro b i j _ _ _
  simp [XXw, Complex.ext_iff]

/-- C4: if the eigendecomposition satisfies the `np.linalg.eigh` contract
— eigenvalues in ascending order with matching eigenvector columns — then
the vector `steering` selects at each bin (the last column) is an
eigenvector of that bin's matrix for its largest eigenvalue, and
`steering`'s output is exactly that vector divided by the unit phase
factor of its first component. -/
theorem steering_selects_largest_eigenvalue (eig : EighResult) (XXs : Arr3)
    (hC : 1 ≤ XXs.d1)
    (hasc : ∀ b k l, b < XXs.d0 → k ≤ l → l < XXs.d1 → eig.w b k ≤ eig.w b l)
    (heig : ∀ b k, b < XXs.d0 → k < XXs.d1 → ∀ i, i < XXs.d1 →
      matVec (fun p q => XXs.e b p q) XXs.d1 (fun r => eig.V b r k) i =
        ((eig.w b k : ℝ) : ℂ) * eig.V b i k)
    (b : Nat) (hb : b < XXs.d0) :
    (∀ c, selVec eig XXs b c = eig.V b c (XXs.d1 - 1)) ∧
    (∀ i, i < XXs.d1 →
      matVec (fun p q => XXs.e b p q) XXs.d1 (selVec eig XXs b) i =
        ((eig.w b (XXs.d1 - 1) : ℝ) : ℂ) * selVec eig XXs b i) ∧
    (∀ k, k < XXs.d1 → eig.w b k ≤ eig.w b (XXs.d1 - 1)) ∧
    (∀ c, (steering eig XXs).e b c =
      selVec eig XXs b c / Complex.exp (I * ((selVec eig XXs b 0).arg : ℂ))) := by
  refine ⟨fun c => rfl, ?_, ?_, fun c => rfl⟩
  · intro i hi
    exact heig b (XXs.d1 - 1) hb (by omega) i hi
  · intro k hk
    exact hasc b k (XXs.d1 - 1) hb (by omega) (by omega)

/-- C4 (witness): at `XXw` with the concrete decomposition `eigW4`
(eigenvalues 0 ≤ 8, columns `(1, -1)` and `(1, 1)`), the selected last
column is an eigenvector for the largest eigenvalue 8, which dominates
the other eigenvalue. -/
theorem steering_selects_largest_eigenvalue_witness :
    (matVec (fun p q => XXw.e 0 p q) XXw.d1 (selVec eigW4 XXw 0) 0 =
      ((eigW4.w 0 (XXw.d1 - 1) : ℝ) : ℂ) * selVec eigW4 XXw 0 0) ∧
    eigW4.w 0 0 ≤ eigW4.w 0 (XXw.d1 - 1) := by
  have h := steering_selects_largest_eigenvalue eigW4 XXw (by norm_num [XXw])
    (by
      intro b k l hb hkl hl
      simp only [XXw] at hl
      interval_cases l <;> interval_cases k <;> norm_num [eigW4])
    (by
      intro b k hb hk i hi
      simp only [XXw] at hk hi
      interval_cases k <;> interval_cases i <;>
        norm_num [matVec, XXw, eigW4, Finset.sum_range_succ])
    0 (by norm_num [XXw])
  exact ⟨h.2.1 0 (by norm_num [XXw]), h.2.2.1 0 (by norm_num [XXw])⟩

/-- C10: if the first component of the selected last eigenvector is zero
at some bin, `steering` does not fail: `np.angle 0 = 0`, the divisor is
`exp(i * 0) = 1`, and the vector is returned unchanged. -/
theorem steering_zero_first_component_safe (eig : EighResult) (XXs : Arr3)
    (b : Nat) (h0 : eig.V b 0 (XXs.d1 - 1) = 0) :
    ∀ c, (steering eig XXs).e b c = eig.V b c (XXs.d1 - 1) := by
  intro c
  unfold steering selVec
  dsimp only
  rw [h0]
  simp

/-- An eigendecomposition whose last eigenvector has first component 0. -/
noncomputable def eigZ : EighResult :=
  ⟨fun _ _ => 0, fun _ r _ => if r = 0 then 0 else 5⟩

/-- The all-zero 1-bin 2-channel correlation stack. -/
def XXz : Arr3 := ⟨1, 2, 2, fun _ _ _ => 0⟩

/-- C10 (witness): with an eigenvector `(0, 5)`, `steering` divides by
`exp(i*0) = 1` and returns component 1 unchanged (equal to 5). -/
theorem steering_zero_first_component_safe_witness :
    (steering eigZ XXz).e 0 1 = 5 := by
  have h := steering_zero_first_component_safe eigZ XXz 0 (by norm_num [eigZ, XXz]) 1
  rw [h]
  norm_num [eigZ, XXz]

/-- C5: for an even positive frame size `N` and a TDOA vector of length
`C`, `freefield` returns a stack of shape `(N/2 + 1, C, C)` whose entry
`(k, i, j)` is `A[k,i] * conj (A[k,j])` with
`A[k,c] = exp(-j * 2 * pi * k * tdoas[c] / N)`. -/
theorem freefield_shape_and_entries (tdoas : Nat → ℝ) (C N : Nat)
    (hN : N % 2 = 0) (hpos : 0 < N) :
    (freefield tdoas C N).d0 = N / 2 + 1 ∧ (freefield tdoas C N).d1 = C ∧
    (freefield tdoas C N).d2 = C ∧
    ∀ k i j, k < N / 2 + 1 → i < C → j < C →
      (freefield tdoas C N).e k i j =
        Complex.exp (-(2 * (Real.pi : ℂ) * (k : ℂ) * ((tdoas i : ℝ) : ℂ) / (N : ℂ)) * I) *
          conj (Complex.exp (-(2 * (Real.pi : ℂ) * (k : ℂ) * ((tdoas j : ℝ) : ℂ) / (N : ℂ)) * I)) := by
  refine ⟨rfl, rfl, rfl, ?_⟩
  intro k i j hk hi hj
  unfold freefield ffA
  dsimp only
  congr 2
  · push_cast
    ring
  · congr 1
    push_cast
    ring

/-- C5 (witness): `tdoas = [0, 0]` with `frame_size = 4` gives 3 bins and
entries identically 1 (here at bin 2, channels (1, 0)). -/
theorem freefield_shape_and_entries_witness :
    (freefield (fun _ => 0) 2 4).d0 = 3 ∧ (freefield (fun _ => 0) 2 4).e 2 1 0 = 1 := by
  have h := freefield_shape_and_entries (fun _ => 0) 2 4 (by norm_num) (by norm_num)
  refine ⟨h.1, ?_⟩
  rw [h.2.2.2 2 1 0 (by norm_num) (by norm_num) (by norm_num)]
  simp
